import Mathlib

/-!
Shallow embedding of the trajectory-generation ROS nodes
(`waypoint_node.cpp` and the `ros_visualization` translation unit) and
proofs about the vertex builder, the visualization decimator, the
vertex drawing routine, the range sampler and the publication policy.

Doubles are idealised as real numbers; `Eigen::Vector3d` becomes a
record of three reals with the Euclidean norm.
-/

namespace MavTraj

/-- `Eigen::Vector3d`. -/
@[ext]
structure Vec3 where
  x : ℝ
  y : ℝ
  z : ℝ

/-- `Eigen::Vector3d::Zero()`. -/
def zero3 : Vec3 := ⟨0, 0, 0⟩

/-- Componentwise sum, used for `position_W + velocity_W` and
`position_W + acceleration_W` when drawing the indicator arrows. -/
def add3 (a b : Vec3) : Vec3 := ⟨a.x + b.x, a.y + b.y, a.z + b.z⟩

/-- `(a - b).norm()`: the Euclidean distance between two vectors. -/
noncomputable def dist3 (a b : Vec3) : ℝ :=
  Real.sqrt ((a.x - b.x) ^ 2 + (a.y - b.y) ^ 2 + (a.z - b.z) ^ 2)

/-- One entry of the dense sample sequence
(`mav_msgs::EigenTrajectoryPoint`): position, velocity and
acceleration in world coordinates. -/
structure TrajPoint where
  pos : Vec3
  vel : Vec3
  acc : Vec3

/-- The slice of `visualization_msgs::Marker` the claims are about:
the namespace tag, the header frame and the point list. -/
structure Marker where
  ns : String
  frame : String
  points : List Vec3

/-- Modelled from the spec: `drawAxesArrows`, `positionDerivativeToString`
and the MAV mesh group are not under `src/`.  The spec reduces one
emission to "a pose marker plus a velocity-indicator marker and an
acceleration-indicator marker anchored at that sample", and names the
derivative categories `velocity` and `acceleration`.  The two arrows are
translated from the source (part_000 lines 86-104): one from the
position to position + acceleration, one from the position to
position + velocity; the additional marker group is the empty dummy
passed by `drawMavTrajectory`. -/
def emitMarkers (p : TrajPoint) : List Marker :=
  [ { ns := "pose", frame := "", points := [p.pos] },
    { ns := "acceleration", frame := "", points := [p.pos, add3 p.pos p.acc] },
    { ns := "velocity", frame := "", points := [p.pos, add3 p.pos p.vel] } ]

/-- The sampling loop of `drawMavTrajectoryWithMavMarker`
(part_000 lines 70-112), with accumulator `a` and cursor `c`
(`accumulated_distance` and `last_position`).  Returns, per sample, the
emission flag (whether the `accumulated_distance > distance` branch
was taken), the line-strip point list (`line_strip.points`, appended
unconditionally) and the emitted discrete markers. -/
noncomputable def decimGo (D : ℝ) (a : ℝ) (c : Vec3) :
    List TrajPoint → List Bool × List Vec3 × List Marker
  | [] => ([], [], [])
  | p :: ps =>
      if D < a + dist3 c p.pos then
        (true :: (decimGo D 0 p.pos ps).1,
         p.pos :: (decimGo D 0 p.pos ps).2.1,
         emitMarkers p ++ (decimGo D 0 p.pos ps).2.2)
      else
        (false :: (decimGo D (a + dist3 c p.pos) p.pos ps).1,
         p.pos :: (decimGo D (a + dist3 c p.pos) p.pos ps).2.1,
         (decimGo D (a + dist3 c p.pos) p.pos ps).2.2)

/-- Modelled from the spec: `setMarkerProperties` is not under `src/`;
it stamps the supplied header (and hence its frame id) onto every
marker of the array. -/
def setMarkerFrames (f : String) (ms : List Marker) : List Marker :=
  ms.map (fun m => { m with frame := f })

/-- `drawMavTrajectoryWithMavMarker` (part_000 lines 55-118)
specialised to the empty additional marker group, exactly as called by
`drawMavTrajectory`: the decimated discrete markers, then the `path`
line strip, all stamped with the header built at lines 113-115 — whose
frame is the string literal `"world"`, not the `fid` argument. -/
noncomputable def drawMavTrajectoryModel (D : ℝ) (fid : String)
    (samples : List TrajPoint) : List Marker :=
  setMarkerFrames "world"
    ((decimGo D 0 zero3 samples).2.2 ++
      [{ ns := "path", frame := "", points := (decimGo D 0 zero3 samples).2.1 }])

/-- Accumulated Euclidean path length of the positions of `ps`,
walked from the cursor `c`. -/
noncomputable def pathLen (c : Vec3) : List TrajPoint → ℝ
  | [] => 0
  | p :: ps => dist3 c p.pos + pathLen p.pos ps

/-- Every sample position differs from its predecessor's (the cursor
`c` for the first sample). -/
def chainDistinct (c : Vec3) : List TrajPoint → Prop
  | [] => True
  | p :: ps => p.pos ≠ c ∧ chainDistinct p.pos ps

/-- One incoming waypoint: the `position` of a pose of the
`geometry_msgs::PoseArray` received on `/waypoints`. -/
structure Waypoint where
  x : ℝ
  y : ℝ
  z : ℝ

/-- `mav_trajectory_generation::Vertex`: the declared spatial dimension
and, per derivative order, an optional fixed-value constraint. -/
structure Vertex where
  dim : ℕ
  constraints : ℕ → Option Vec3

/-- `Vertex v(dimension)`: a vertex with no constraints. -/
def emptyVertex (d : ℕ) : Vertex := ⟨d, fun _ => none⟩

instance : Inhabited Vertex := ⟨emptyVertex 0⟩

/-- `Vertex::addConstraint(order, value)`: record (or overwrite) the
constraint for one derivative order. -/
def addConstraint (v : Vertex) (o : ℕ) (p : Vec3) : Vertex :=
  ⟨v.dim, fun k => if k = o then some p else v.constraints k⟩

/-- Modelled from the spec: `Vertex::makeStartOrEnd` is library code
not under `src/`.  Spec: "all derivatives from 0 up to the optimize
order are constrained (position = waypoint, higher derivatives =
zero)". -/
def makeStartOrEnd (d : ℕ) (p : Vec3) (upTo : ℕ) : Vertex :=
  ⟨d, fun k => if k = 0 then some p else if k ≤ upTo then some zero3 else none⟩

/-- `derivative_order::POSITION`. -/
def POSITION : ℕ := 0

/-- `derivative_order::ACCELERATION`, the derivative the node
optimizes. -/
def ACCELERATION : ℕ := 2

/-- `Eigen::Vector3d(p.x, p.y, 0)`: the node drops the incoming z
coordinate and substitutes the literal 0 (waypoint_node.cpp lines 37,
43, 47). -/
def wvec (w : Waypoint) : Vec3 := ⟨w.x, w.y, 0⟩

/-- The interior waypoints, indices `1 .. size-2`, visited by the
`for(int ii=1; ii < way_.poses.size()-1; ii++)` loop. -/
def interiorWaypoints (wps : List Waypoint) : List Waypoint :=
  (wps.drop 1).take (wps.length - 2)

/-- The interior loop of waypoint_node.cpp lines 41-45: the single
`middle` vertex is mutated by `addConstraint` each iteration and a
copy is pushed; the state is threaded explicitly. -/
def buildMiddles (m : Vertex) : List Waypoint → List Vertex
  | [] => []
  | w :: ws => addConstraint m POSITION (wvec w) :: buildMiddles (addConstraint m POSITION (wvec w)) ws

/-- The vertex-building block of waypoint_node.cpp lines 35-48: under
the guard `way_.poses.size() > 0`, push a boundary vertex built from
the first waypoint, one position-only vertex per interior waypoint,
and a boundary vertex built from the last waypoint.  `none` is the
guard-failed case in which no vertices are built and the cycle
publishes nothing. -/
def buildVertices : List Waypoint → Option (List Vertex)
  | [] => none
  | w :: t =>
      some (makeStartOrEnd 3 (wvec w) ACCELERATION ::
        buildMiddles (emptyVertex 3) (interiorWaypoints (w :: t)) ++
        [makeStartOrEnd 3 (wvec ((w :: t).getLast (List.cons_ne_nil w t))) ACCELERATION])

/-- The loop of `drawVertices` (part_000 lines 131-145) over the
vertex list, threading the line-strip point list `pts`: a vertex of
dimension other than 3 aborts with `false`; a vertex with a position
constraint appends it; a vertex without one is skipped. -/
def drawVerticesLoop (pts : List Vec3) : List Vertex → Bool × List Vec3
  | [] => (true, pts)
  | v :: vs =>
      if v.dim = 3 then
        match v.constraints POSITION with
        | some p => drawVerticesLoop (pts ++ [p]) vs
        | none => drawVerticesLoop pts vs
      else (false, pts)

/-- `drawVertices` (part_000 lines 120-151) on a fresh marker array:
returns the success flag and the `straight_path` line-strip points. -/
def drawVertices (vertices : List Vertex) : Bool × List Vec3 :=
  drawVerticesLoop [] vertices

/-- Modelled from the spec: `Trajectory::evaluateRange` is library
code not under `src/`.  Spec: "given [t_start, t_end] and a step
dt > 0, produces a lazy, finite, restartable sequence of (time,
vector) samples at t_start, t_start+dt, … not exceeding t_end", the
invalid ranges producing nothing.  The indices k with
t_start + k*dt ≤ t_end are exactly k ≤ ⌊(t_end - t_start)/dt⌋, which
gives the sample times in closed form. -/
noncomputable def evaluateRangeTimes (ts te dt : ℝ) : List ℝ :=
  if 0 < dt ∧ ts ≤ te then
    (List.range ((⌊(te - ts) / dt⌋).toNat + 1)).map (fun k : ℕ => ts + (k : ℝ) * dt)
  else []

/-- One invocation of the waypoint_node publish cycle
(waypoint_node.cpp lines 35-110).  Modelled from the spec: the linear
solver and the sampler are library code not under `src/`, so the
solver's outcome arrives as the flag `solveOk` and the dense sample
sequence as `samples`.  The node discards the result of
`opt.solveLinear()` (line 67, return value unchecked) — `solveOk` is
received and never inspected — and publishes the marker array built
by `drawMavTrajectory` whenever the vertex-building guard passed. -/
noncomputable def waypointNodePublish (wps : List Waypoint) (solveOk : Bool)
    (samples : List TrajPoint) : Option (List Marker) :=
  match buildVertices wps with
  | none => none
  | some _ => some (drawMavTrajectoryModel 1.6 "world" samples)

/-- The output contract of the vertex-building block, stated against
the embedding: one vertex per waypoint at the same index, boundary
vertices (all derivatives 0..ACCELERATION constrained, position equal
to the dropped-z waypoint, higher derivatives zero) at the two ends,
and a lone position constraint at each interior index. -/
def vertexBuilderContract (wps : List Waypoint) : Prop :=
  ∃ vs, buildVertices wps = some vs ∧ vs.length = wps.length ∧
    ∀ i w, wps.get? i = some w →
      ∃ v, vs.get? i = some v ∧ v.dim = 3 ∧
        ∀ k, v.constraints k =
          if i = 0 ∨ i = wps.length - 1 then
            (if k = 0 then some (wvec w) else if k ≤ ACCELERATION then some zero3 else none)
          else (if k = 0 then some (wvec w) else none)

/-- The behaviour of range evaluation on a valid range: the sample
count is `⌊(t_end - t_start)/dt⌋ + 1`, index `k` is in range exactly
when `t_start + k*dt` does not exceed `t_end`, and the sample at
index `k` is `t_start + k*dt`. -/
noncomputable def rangeSamplingSpec (ts te dt : ℝ) : Prop :=
  (evaluateRangeTimes ts te dt).length = (⌊(te - ts) / dt⌋).toNat + 1 ∧
  (∀ k : ℕ, k < (evaluateRangeTimes ts te dt).length ↔ ts + k * dt ≤ te) ∧
  (∀ k : ℕ, k < (evaluateRangeTimes ts te dt).length →
    (evaluateRangeTimes ts te dt).get? k = some (ts + k * dt))

/-! ## Basic lemmas about the embedding -/

theorem dist3_self (a : Vec3) : dist3 a a = 0 := by
  simp [dist3]

theorem dist3_pos (a b : Vec3) (h : a ≠ b) : 0 < dist3 a b := by
  refine Real.sqrt_pos.mpr ?_
  rcases lt_or_eq_of_le
      (by positivity : (0:ℝ) ≤ (a.x - b.x) ^ 2 + (a.y - b.y) ^ 2 + (a.z - b.z) ^ 2) with h1 | h1
  · exact h1
  · exfalso
    apply h
    have hx2 : (a.x - b.x) ^ 2 = 0 := by
      nlinarith [sq_nonneg (a.x - b.x), sq_nonneg (a.y - b.y), sq_nonneg (a.z - b.z)]
    have hy2 : (a.y - b.y) ^ 2 = 0 := by
      nlinarith [sq_nonneg (a.x - b.x), sq_nonneg (a.y - b.y), sq_nonneg (a.z - b.z)]
    have hz2 : (a.z - b.z) ^ 2 = 0 := by
      nlinarith [sq_nonneg (a.x - b.x), sq_nonneg (a.y - b.y), sq_nonneg (a.z - b.z)]
    ext
    · nlinarith [hx2]
    · nlinarith [hy2]
    · nlinarith [hz2]

theorem dist3_axis (a b yy zz : ℝ) :
    dist3 ⟨a, yy, zz⟩ ⟨b, yy, zz⟩ = |a - b| := by
  simp [dist3, Real.sqrt_sq_eq_abs]

theorem decimGo_polyline (D : ℝ) :
    ∀ (ps : List TrajPoint) (a : ℝ) (c : Vec3),
      (decimGo D a c ps).2.1 = ps.map (fun s => s.pos)
  | [], _, _ => by simp [decimGo]
  | p :: ps, a, c => by
      by_cases h : D < a + dist3 c p.pos
      · simp [decimGo, h, decimGo_polyline D ps 0 p.pos]
      · simp [decimGo, h, decimGo_polyline D ps (a + dist3 c p.pos) p.pos]

theorem decimGo_flags_length (D : ℝ) :
    ∀ (ps : List TrajPoint) (a : ℝ) (c : Vec3),
      (decimGo D a c ps).1.length = ps.length
  | [], _, _ => by simp [decimGo]
  | p :: ps, a, c => by
      by_cases h : D < a + dist3 c p.pos
      · simp [decimGo, h, decimGo_flags_length D ps 0 p.pos]
      · simp [decimGo, h, decimGo_flags_length D ps (a + dist3 c p.pos) p.pos]

/-! ## Claim theorems -/

/-- C5: the decimator appends every incoming sample's position to the
`path` line strip unconditionally, in input order, so the polyline is
exactly the position sequence of the samples and its point count
equals the sample count. -/
theorem c5_polyline_all_samples (D : ℝ) (samples : List TrajPoint) :
    (decimGo D 0 zero3 samples).2.1 = samples.map (fun s => s.pos) ∧
    (decimGo D 0 zero3 samples).2.1.length = samples.length := by
  refine ⟨decimGo_polyline D samples 0 zero3, ?_⟩
  rw [decimGo_polyline D samples 0 zero3, List.length_map]

/-- C2 (counterexample): a waypoint list of length exactly 1 is not
skipped — the `way_.poses.size() > 0` guard passes, and the builder
produces two vertices (a start and an end boundary vertex, both from
the single waypoint), so trajectory generation is attempted rather
than refused. -/
theorem c2_counterexample :
    (buildVertices [⟨1, 2, 3⟩]).isSome = true ∧
    ((buildVertices [⟨1, 2, 3⟩]).getD []).length = 2 := by
  exact ⟨rfl, rfl⟩

/-- C2 (amended): the node skips trajectory generation only when the
waypoint list is empty; a single-waypoint list passes the guard and
yields a two-vertex sequence built from that one waypoint. -/
theorem c2_amended_guard (wps : List Waypoint) (w : Waypoint) :
    (buildVertices wps = none ↔ wps = []) ∧
    ((buildVertices [w]).getD []).length = 2 := by
  refine ⟨?_, rfl⟩
  cases wps <;> simp [buildVertices]

/-- C9 (counterexample): an invocation whose solve stage fails
(`solveOk = false`) still publishes a marker array — the node never
inspects the solver's result. -/
theorem c9_counterexample :
    (waypointNodePublish [⟨0, 0, 0⟩] false []).isSome = true := by
  rfl

/-- C9 (amended): the node publishes a marker array exactly when the
waypoint list is nonempty, and the published value is independent of
the solve stage's outcome — a stage failure does not suppress
publication. -/
theorem c9_amended_publish (wps : List Waypoint) (okA okB : Bool)
    (samples : List TrajPoint) :
    ((waypointNodePublish wps okA samples).isSome = true ↔ wps ≠ []) ∧
    waypointNodePublish wps okA samples = waypointNodePublish wps okB samples := by
  cases wps <;> simp [waypointNodePublish, buildVertices]

theorem drawVerticesLoop_spec :
    ∀ (vs : List Vertex) (pts : List Vec3),
      ((drawVerticesLoop pts vs).1 = false ↔ ∃ v ∈ vs, v.dim ≠ 3) ∧
      ((drawVerticesLoop pts vs).1 = true →
        (drawVerticesLoop pts vs).2 =
          pts ++ vs.filterMap (fun v => v.constraints POSITION)) := by
  intro vs
  induction vs with
  | nil => intro pts; simp [drawVerticesLoop]
  | cons v vs ih =>
      intro pts
      by_cases hd : v.dim = 3
      · have hiff : ∀ t : List Vec3,
            ((drawVerticesLoop t vs).1 = false ↔ ∃ x ∈ v :: vs, x.dim ≠ 3) := by
          intro t
          rw [(ih t).1]
          constructor
          · rintro ⟨x, hx, hne⟩
            exact ⟨x, List.mem_cons_of_mem v hx, hne⟩
          · rintro ⟨x, hx, hne⟩
            rcases List.mem_cons.mp hx with hxe | hxm
            · exact absurd (hxe ▸ hne) (by simp [hd])
            · exact ⟨x, hxm, hne⟩
        cases hc : v.constraints POSITION with
        | some p =>
            have h1 : drawVerticesLoop pts (v :: vs) = drawVerticesLoop (pts ++ [p]) vs := by
              simp [drawVerticesLoop, hd, hc]
            rw [h1]
            refine ⟨hiff (pts ++ [p]), ?_⟩
            intro ht
            rw [(ih (pts ++ [p])).2 ht, List.filterMap_cons, hc, List.append_assoc]
            rfl
        | none =>
            have h1 : drawVerticesLoop pts (v :: vs) = drawVerticesLoop pts vs := by
              simp [drawVerticesLoop, hd, hc]
            rw [h1]
            refine ⟨hiff pts, ?_⟩
            intro ht
            rw [(ih pts).2 ht, List.filterMap_cons, hc]
      · have h1 : drawVerticesLoop pts (v :: vs) = (false, pts) := by
          simp [drawVerticesLoop, hd]
        rw [h1]
        refine ⟨iff_of_true rfl ⟨v, List.mem_cons_self v vs, hd⟩, ?_⟩
        intro ht
        cases ht

/-- C10: `drawVertices` returns `false` exactly when some vertex has a
spatial dimension other than 3, and on success the `straight_path`
polyline is the ordered list of the position constraints of exactly
those vertices that carry one — vertices without a position constraint
are skipped without causing failure. -/
theorem c10_drawVertices (vs : List Vertex) :
    ((drawVertices vs).1 = false ↔ ∃ v ∈ vs, v.dim ≠ 3) ∧
    ((drawVertices vs).1 = true →
      (drawVertices vs).2 = vs.filterMap (fun v => v.constraints POSITION)) := by
  have h := drawVerticesLoop_spec vs []
  simpa [drawVertices] using h

/-- C10 (witness): on a 3-dimensional two-vertex list whose second
vertex has no position constraint, the call succeeds and the polyline
holds exactly the first vertex's position. -/
theorem c10_drawVertices_witness :
    (drawVertices [⟨3, fun k => if k = 0 then some ⟨1, 2, 3⟩ else none⟩,
      ⟨3, fun _ => none⟩]).1 = true ∧
    (drawVertices [⟨3, fun k => if k = 0 then some ⟨1, 2, 3⟩ else none⟩,
      ⟨3, fun _ => none⟩]).2 = [⟨1, 2, 3⟩] := by
  refine ⟨rfl, ?_⟩
  exact ((c10_drawVertices [⟨3, fun k => if k = 0 then some ⟨1, 2, 3⟩ else none⟩,
    ⟨3, fun _ => none⟩]).2 rfl).trans rfl

theorem makeStartOrEnd_z (d : ℕ) (q : Vec3) (u k : ℕ) (p : Vec3) (hq : q.z = 0)
    (h : (makeStartOrEnd d q u).constraints k = some p) : p.z = 0 := by
  by_cases hk : k = 0
  · simp [makeStartOrEnd, hk] at h
    rw [← h]
    exact hq
  · by_cases hku : k ≤ u
    · simp [makeStartOrEnd, hk, hku] at h
      rw [← h]
      rfl
    · simp [makeStartOrEnd, hk, hku] at h

theorem buildMiddles_z :
    ∀ (ws : List Waypoint) (m : Vertex),
      (∀ k p, m.constraints k = some p → p.z = 0) →
      ∀ v ∈ buildMiddles m ws, ∀ k p, v.constraints k = some p → p.z = 0 := by
  intro ws
  induction ws with
  | nil => intro m hm v hv; simp [buildMiddles] at hv
  | cons w ws ih =>
      intro m hm v hv k p hc
      have hm2 : ∀ k p, (addConstraint m POSITION (wvec w)).constraints k = some p → p.z = 0 := by
        intro k2 p2 h2
        by_cases hk2 : k2 = POSITION
        · simp [addConstraint, hk2] at h2
          rw [← h2]
          rfl
        · simp [addConstraint, hk2] at h2
          exact hm k2 p2 h2
      rcases List.mem_cons.mp hv with hve | hvm
      · exact hm2 k p (hve ▸ hc)
      · exact ih (addConstraint m POSITION (wvec w)) hm2 v hvm k p hc

/-- C7: in the observed configuration every vertex constraint produced
by the vertex builder — boundary or interior, any derivative order —
has z component 0, whatever z values the incoming waypoints carry:
the generated motion is planar. -/
theorem c7_planar (wps : List Waypoint) (vs : List Vertex) (i k : ℕ)
    (v : Vertex) (p : Vec3)
    (hbv : buildVertices wps = some vs) (hv : vs.get? i = some v)
    (hc : v.constraints k = some p) : p.z = 0 := by
  cases wps with
  | nil => cases hbv
  | cons w t =>
      have hvs : vs = makeStartOrEnd 3 (wvec w) ACCELERATION ::
          buildMiddles (emptyVertex 3) (interiorWaypoints (w :: t)) ++
          [makeStartOrEnd 3 (wvec ((w :: t).getLast (List.cons_ne_nil w t))) ACCELERATION] := by
        have := hbv
        simp [buildVertices] at this
        exact this.symm
      have hmem : v ∈ vs := List.get?_mem hv
      rw [hvs] at hmem
      rcases List.mem_cons.mp hmem with hve | hmem2
      · exact makeStartOrEnd_z 3 (wvec w) ACCELERATION k p rfl (hve ▸ hc)
      · rcases List.mem_append.mp hmem2 with hmid | hlast
        · exact buildMiddles_z (interiorWaypoints (w :: t)) (emptyVertex 3)
            (by intro k2 p2 h2; simp [emptyVertex] at h2) v hmid k p hc
        · have hve : v = makeStartOrEnd 3
              (wvec ((w :: t).getLast (List.cons_ne_nil w t))) ACCELERATION := by
            simpa using hlast
          exact makeStartOrEnd_z 3 _ ACCELERATION k p rfl (hve ▸ hc)

/-- C7 (witness): on a two-waypoint list with nonzero incoming z
values, the first vertex's position constraint is `(1, 2, 0)`, whose z
component is 0. -/
theorem c7_planar_witness :
    (((buildVertices [⟨1, 2, 5⟩, ⟨3, 4, 7⟩]).getD []).headI.constraints 0 =
      some ⟨1, 2, 0⟩) ∧
    (⟨1, 2, 0⟩ : Vec3).z = 0 := by
  refine ⟨rfl, ?_⟩
  exact c7_planar [⟨1, 2, 5⟩, ⟨3, 4, 7⟩] ((buildVertices [⟨1, 2, 5⟩, ⟨3, 4, 7⟩]).getD [])
    0 0 (((buildVertices [⟨1, 2, 5⟩, ⟨3, 4, 7⟩]).getD []).headI) ⟨1, 2, 0⟩ rfl rfl rfl

theorem length_buildMiddles :
    ∀ (ws : List Waypoint) (m : Vertex), (buildMiddles m ws).length = ws.length
  | [], _ => rfl
  | w :: ws, m => by
      simp [buildMiddles, length_buildMiddles ws (addConstraint m POSITION (wvec w))]

theorem buildMiddles_get :
    ∀ (ws : List Waypoint) (m : Vertex) (j : ℕ) (w : Waypoint),
      (∀ k, k ≠ POSITION → m.constraints k = none) →
      ws.get? j = some w →
      ∃ v, (buildMiddles m ws).get? j = some v ∧ v.dim = m.dim ∧
        ∀ k, v.constraints k = if k = 0 then some (wvec w) else none := by
  intro ws
  induction ws with
  | nil => intro m j w hm hj; simp at hj
  | cons w0 ws ih =>
      intro m j w hm hj
      cases j with
      | zero =>
          have hw0 : w0 = w := by simpa using hj
          subst hw0
          refine ⟨addConstraint m POSITION (wvec w0), by simp [buildMiddles], rfl, ?_⟩
          intro k
          by_cases hk : k = 0
          · simp [addConstraint, POSITION, hk]
          · simp only [addConstraint, POSITION] at hm ⊢
            simp [hk, hm k hk]
      | succ j =>
          simp only [List.get?_cons_succ] at hj
          have hm2 : ∀ k, k ≠ POSITION →
              (addConstraint m POSITION (wvec w0)).constraints k = none := by
            intro k hk
            simp only [addConstraint]
            simp [hk, hm k hk]
          obtain ⟨v, hv, hdim, hcon⟩ := ih (addConstraint m POSITION (wvec w0)) j w hm2 hj
          refine ⟨v, ?_, ?_, hcon⟩
          · simpa [buildMiddles] using hv
          · simpa [addConstraint] using hdim

/-- C1: for every waypoint list accepted by the vertex builder (at
least two waypoints), the output has one vertex per waypoint at the
same index; the first and last vertices are boundary vertices built
from the first and last waypoints (derivatives 0..ACCELERATION
constrained: position equal to the waypoint, higher derivatives zero),
and every interior waypoint becomes a vertex carrying only a position
constraint equal to that waypoint. -/
theorem c1_vertex_builder (wps : List Waypoint) (h2 : 2 ≤ wps.length) :
    vertexBuilderContract wps := by
  cases wps with
  | nil => simp at h2
  | cons w t =>
      have ht1 : 1 ≤ t.length := by
        simp only [List.length_cons] at h2
        omega
      have hmlen : (buildMiddles (emptyVertex 3) (interiorWaypoints (w :: t))).length =
          t.length - 1 := by
        rw [length_buildMiddles]
        simp only [interiorWaypoints, List.length_take, List.length_drop, List.length_cons]
        rw [min_eq_left (by omega)]
        omega
      refine ⟨makeStartOrEnd 3 (wvec w) ACCELERATION ::
        buildMiddles (emptyVertex 3) (interiorWaypoints (w :: t)) ++
        [makeStartOrEnd 3 (wvec ((w :: t).getLast (List.cons_ne_nil w t))) ACCELERATION],
        rfl, ?_, ?_⟩
      · simp only [List.length_append, List.length_cons, List.length_nil, hmlen]
        omega
      · intro i w2 hw
        have hilen : i < (w :: t).length := by
          by_contra hcon
          push_neg at hcon
          rw [List.get?_eq_none.mpr hcon] at hw
          cases hw
        by_cases hi0 : i = 0
        · subst hi0
          have hww : w = w2 := by simpa using hw
          subst hww
          refine ⟨makeStartOrEnd 3 (wvec w) ACCELERATION, rfl, rfl, ?_⟩
          intro k
          have hor : (0 = 0 ∨ 0 = (w :: t).length - 1) := Or.inl rfl
          rw [if_pos hor]
          rfl
        · obtain ⟨j, rfl⟩ : ∃ j, i = j + 1 := ⟨i - 1, by omega⟩
          by_cases hlast : j + 1 = (w :: t).length - 1
          · -- the final boundary vertex
            have hj : j = t.length - 1 := by
              simp only [List.length_cons] at hlast
              omega
            have hget : ((makeStartOrEnd 3 (wvec w) ACCELERATION ::
                buildMiddles (emptyVertex 3) (interiorWaypoints (w :: t))) ++
                [makeStartOrEnd 3 (wvec ((w :: t).getLast (List.cons_ne_nil w t)))
                  ACCELERATION]).get? (j + 1) =
                some (makeStartOrEnd 3 (wvec ((w :: t).getLast (List.cons_ne_nil w t)))
                  ACCELERATION) := by
              rw [List.get?_append_right (by simp only [List.length_cons, hmlen]; omega)]
              have h0 : j + 1 - (makeStartOrEnd 3 (wvec w) ACCELERATION ::
                  buildMiddles (emptyVertex 3) (interiorWaypoints (w :: t))).length = 0 := by
                simp only [List.length_cons, hmlen]
                omega
              rw [h0]
              rfl
            have hw2 : w2 = (w :: t).getLast (List.cons_ne_nil w t) := by
              have hg : (w :: t).get? (j + 1) =
                  some ((w :: t).get ⟨j + 1, hilen⟩) := List.get?_eq_get hilen
              rw [hg] at hw
              have hlg : (w :: t).getLast (List.cons_ne_nil w t) =
                  (w :: t).get ⟨(w :: t).length - 1, by simp⟩ :=
                List.getLast_eq_get (w :: t) (List.cons_ne_nil w t)
              have hidx : (⟨j + 1, hilen⟩ : Fin (w :: t).length) =
                  ⟨(w :: t).length - 1, by simp⟩ := by
                apply Fin.ext
                simp only [List.length_cons]
                omega
              simp only [Option.some.injEq] at hw
              rw [← hw, hlg, hidx]
            refine ⟨makeStartOrEnd 3 (wvec ((w :: t).getLast (List.cons_ne_nil w t)))
              ACCELERATION, hget, rfl, ?_⟩
            intro k
            have hor : (j + 1 = 0 ∨ j + 1 = (w :: t).length - 1) := Or.inr hlast
            rw [if_pos hor, ← hw2]
            rfl
          · -- an interior vertex
            have hjlt : j < t.length - 1 := by
              simp only [List.length_cons] at hilen hlast
              omega
            have hwj : (interiorWaypoints (w :: t)).get? j = some w2 := by
              simp only [interiorWaypoints, List.drop_one, List.tail_cons]
              rw [List.get?_take (by simp only [List.length_cons]; omega)]
              simpa using hw
            obtain ⟨v, hv, hdim, hcon⟩ := buildMiddles_get (interiorWaypoints (w :: t))
              (emptyVertex 3) j w2 (by intro k hk; rfl) hwj
            refine ⟨v, ?_, hdim, ?_⟩
            · rw [List.get?_append (by simp only [List.length_cons, hmlen]; omega),
                List.get?_cons_succ]
              exact hv
            · intro k
              have hor : ¬ (j + 1 = 0 ∨ j + 1 = (w :: t).length - 1) := by
                push_neg
                exact ⟨Nat.succ_ne_zero j, hlast⟩
              rw [if_neg hor]
              exact hcon k

/-- C1 (witness): the spec's example waypoint list has at least two
entries and satisfies the vertex-builder contract. -/
theorem c1_vertex_builder_witness :
    2 ≤ ([⟨0, 0, 0⟩, ⟨5, 0, 0⟩, ⟨10, 0, 0⟩] : List Waypoint).length ∧
    vertexBuilderContract [⟨0, 0, 0⟩, ⟨5, 0, 0⟩, ⟨10, 0, 0⟩] :=
  ⟨by simp, c1_vertex_builder [⟨0, 0, 0⟩, ⟨5, 0, 0⟩, ⟨10, 0, 0⟩] (by simp)⟩

/-- C3 (counterexample): with spacing 0, a sample whose position
coincides with the cursor (here the single sample sits at the zero
vector, the cursor's initial value) adds 0 to the accumulator, the
strict test `accumulated_distance > 0` fails, and no markers are
emitted — so the emission count 0 differs from the sample count 1. -/
theorem c3_counterexample :
    (decimGo 0 0 zero3 [⟨zero3, zero3, zero3⟩]).1.count true = 0 ∧
    (decimGo 0 0 zero3 [⟨zero3, zero3, zero3⟩]).2.2 = [] ∧
    ([(⟨zero3, zero3, zero3⟩ : TrajPoint)] : List TrajPoint).length = 1 := by
  have hc : ¬ ((0:ℝ) < dist3 zero3 zero3) := by
    simp [dist3_self]
  refine ⟨?_, ?_, rfl⟩ <;> simp [decimGo, hc]

theorem decimGo_all_emit :
    ∀ (ps : List TrajPoint) (c : Vec3), chainDistinct c ps →
      (decimGo 0 0 c ps).1.count true = ps.length
  | [], _, _ => by simp [decimGo]
  | p :: ps, c, h => by
      obtain ⟨hne, hch⟩ := h
      have hc : (0:ℝ) < dist3 c p.pos := dist3_pos c p.pos (Ne.symm hne)
      simp [decimGo, hc, decimGo_all_emit ps p.pos hch]

/-- C3 (amended): with spacing 0 a sample triggers marker emission
exactly when its position differs from the previous cursor position
(the zero vector before the first sample); in particular, when every
sample's position differs from its predecessor's, the emission count
equals the sample count. -/
theorem c3_amended_spacing_zero (samples : List TrajPoint)
    (h : chainDistinct zero3 samples) :
    (decimGo 0 0 zero3 samples).1.count true = samples.length :=
  decimGo_all_emit samples zero3 h

/-- C3 (witness): two samples at distinct nonzero positions both emit
markers under spacing 0. -/
theorem c3_amended_spacing_zero_witness :
    chainDistinct zero3 [⟨⟨1, 0, 0⟩, zero3, zero3⟩, ⟨⟨3, 0, 0⟩, zero3, zero3⟩] ∧
    (decimGo 0 0 zero3
      [⟨⟨1, 0, 0⟩, zero3, zero3⟩, ⟨⟨3, 0, 0⟩, zero3, zero3⟩]).1.count true = 2 := by
  have hcd : chainDistinct zero3
      [⟨⟨1, 0, 0⟩, zero3, zero3⟩, ⟨⟨3, 0, 0⟩, zero3, zero3⟩] := by
    refine ⟨?_, ?_, trivial⟩
    · intro h
      have := congrArg Vec3.x h
      norm_num [zero3] at this
    · intro h
      have := congrArg Vec3.x h
      norm_num at this
  exact ⟨hcd, c3_amended_spacing_zero _ hcd⟩

theorem decimGo_first_emit (D : ℝ) :
    ∀ (ps : List TrajPoint) (a : ℝ) (c : Vec3) (j : ℕ),
      (decimGo D a c ps).1.get? j = some true →
      (∀ k, k < j → (decimGo D a c ps).1.get? k = some false) →
      D < a + pathLen c (ps.take (j + 1))
  | [], a, c, j => by
      intro hj hk
      simp [decimGo] at hj
  | p :: ps, a, c, j => by
      intro hj hk
      by_cases hD : D < a + dist3 c p.pos
      · cases j with
        | zero => simpa [pathLen] using hD
        | succ j =>
            have h0 := hk 0 (Nat.succ_pos j)
            simp [decimGo, hD] at h0
      · cases j with
        | zero => simp [decimGo, hD] at hj
        | succ j =>
            have hj2 : (decimGo D (a + dist3 c p.pos) p.pos ps).1.get? j = some true := by
              simpa [decimGo, hD] using hj
            have hk2 : ∀ k, k < j →
                (decimGo D (a + dist3 c p.pos) p.pos ps).1.get? k = some false := by
              intro k hkj
              have := hk (k + 1) (Nat.succ_lt_succ hkj)
              simpa [decimGo, hD] using this
            have hmain := decimGo_first_emit D ps (a + dist3 c p.pos) p.pos j hj2 hk2
            have htake : (p :: ps).take (j + 1 + 1) = p :: ps.take (j + 1) := rfl
            rw [htake, pathLen]
            linarith

theorem decimGo_drop_emit (D : ℝ) :
    ∀ (ps : List TrajPoint) (a : ℝ) (c : Vec3) (i : ℕ) (p : TrajPoint),
      ps.get? i = some p →
      (decimGo D a c ps).1.get? i = some true →
      (decimGo D a c ps).1.drop (i + 1) = (decimGo D 0 p.pos (ps.drop (i + 1))).1
  | [], a, c, i, p => by
      intro hp ht
      simp at hp
  | q :: ps, a, c, i, p => by
      intro hp ht
      cases i with
      | zero =>
          have hq : q = p := by simpa using hp
          subst hq
          by_cases hD : D < a + dist3 c q.pos
          · simp [decimGo, hD]
          · simp [decimGo, hD] at ht
      | succ i =>
          have hp2 : ps.get? i = some p := by simpa using hp
          by_cases hD : D < a + dist3 c q.pos
          · have ht2 : (decimGo D 0 q.pos ps).1.get? i = some true := by
              simpa [decimGo, hD] using ht
            have := decimGo_drop_emit D ps 0 q.pos i p hp2 ht2
            simpa [decimGo, hD] using this
          · have ht2 : (decimGo D (a + dist3 c q.pos) q.pos ps).1.get? i = some true := by
              simpa [decimGo, hD] using ht
            have := decimGo_drop_emit D ps (a + dist3 c q.pos) q.pos i p hp2 ht2
            simpa [decimGo, hD] using this

/-- C4: for spacing D > 0, between one marker emission and the next
the accumulated Euclidean path distance over the cursor positions
strictly exceeds D: if samples i and j both emit and no sample
strictly between them does, the path length from sample i's position
through the positions of samples i+1 .. j is greater than D. -/
theorem c4_marker_spacing (D : ℝ) (samples : List TrajPoint) (i j : ℕ)
    (hD : 0 < D) (hij : i < j)
    (hi : (decimGo D 0 zero3 samples).1.get? i = some true)
    (hj : (decimGo D 0 zero3 samples).1.get? j = some true)
    (hbetween : ∀ k, i < k → k < j →
      (decimGo D 0 zero3 samples).1.get? k = some false) :
    ∃ p, samples.get? i = some p ∧
      D < pathLen p.pos ((samples.drop (i + 1)).take (j - i)) := by
  have hlen : i < samples.length := by
    have h1 : i < (decimGo D 0 zero3 samples).1.length := by
      by_contra hcon
      push_neg at hcon
      rw [List.get?_eq_none.mpr hcon] at hi
      cases hi
    rwa [decimGo_flags_length] at h1
  obtain ⟨p, hp⟩ : ∃ p, samples.get? i = some p := by
    cases hsp : samples.get? i with
    | none =>
        rw [List.get?_eq_none] at hsp
        omega
    | some p => exact ⟨p, rfl⟩
  refine ⟨p, hp, ?_⟩
  have hdrop := decimGo_drop_emit D samples 0 zero3 i p hp hi
  have hj2 : (decimGo D 0 p.pos (samples.drop (i + 1))).1.get? (j - i - 1) = some true := by
    rw [← hdrop, List.get?_drop]
    have hidx : i + 1 + (j - i - 1) = j := by omega
    rw [hidx]
    exact hj
  have hk2 : ∀ k, k < j - i - 1 →
      (decimGo D 0 p.pos (samples.drop (i + 1))).1.get? k = some false := by
    intro k hkj
    rw [← hdrop, List.get?_drop]
    exact hbetween (i + 1 + k) (by omega) (by omega)
  have hmain := decimGo_first_emit D (samples.drop (i + 1)) 0 p.pos (j - i - 1) hj2 hk2
  have hidx2 : j - i - 1 + 1 = j - i := by omega
  rw [hidx2] at hmain
  linarith

/-- C4 (witness): with spacing 1 and two samples 2 apart on the x
axis (the first 2 from the zero cursor), both samples emit and the
path length between the consecutive emissions exceeds 1. -/
theorem c4_marker_spacing_witness :
    (decimGo 1 0 zero3
      [⟨⟨2, 0, 0⟩, zero3, zero3⟩, ⟨⟨4, 0, 0⟩, zero3, zero3⟩]).1.get? 0 = some true ∧
    (decimGo 1 0 zero3
      [⟨⟨2, 0, 0⟩, zero3, zero3⟩, ⟨⟨4, 0, 0⟩, zero3, zero3⟩]).1.get? 1 = some true ∧
    ∃ p, ([⟨⟨2, 0, 0⟩, zero3, zero3⟩, ⟨⟨4, 0, 0⟩, zero3, zero3⟩] :
        List TrajPoint).get? 0 = some p ∧
      (1:ℝ) < pathLen p.pos
        ((([⟨⟨2, 0, 0⟩, zero3, zero3⟩, ⟨⟨4, 0, 0⟩, zero3, zero3⟩] :
          List TrajPoint).drop 1).take 1) := by
  have hd1 : dist3 zero3 ⟨2, 0, 0⟩ = 2 := by
    show dist3 ⟨0, 0, 0⟩ ⟨2, 0, 0⟩ = 2
    rw [dist3_axis]
    rw [abs_sub_comm]
    norm_num
  have hd2 : dist3 (⟨2, 0, 0⟩ : Vec3) ⟨4, 0, 0⟩ = 2 := by
    rw [dist3_axis]
    rw [abs_sub_comm]
    norm_num
  have h1 : (1:ℝ) < dist3 zero3 ⟨2, 0, 0⟩ := by
    rw [hd1]
    norm_num
  have h2 : (1:ℝ) < dist3 (⟨2, 0, 0⟩ : Vec3) ⟨4, 0, 0⟩ := by
    rw [hd2]
    norm_num
  have hflags : (decimGo 1 0 zero3
      [⟨⟨2, 0, 0⟩, zero3, zero3⟩, ⟨⟨4, 0, 0⟩, zero3, zero3⟩]).1 = [true, true] := by
    simp [decimGo, h1, h2]
  have hf0 : (decimGo 1 0 zero3
      [⟨⟨2, 0, 0⟩, zero3, zero3⟩, ⟨⟨4, 0, 0⟩, zero3, zero3⟩]).1.get? 0 = some true := by
    rw [hflags]
    rfl
  have hf1 : (decimGo 1 0 zero3
      [⟨⟨2, 0, 0⟩, zero3, zero3⟩, ⟨⟨4, 0, 0⟩, zero3, zero3⟩]).1.get? 1 = some true := by
    rw [hflags]
    rfl
  exact ⟨hf0, hf1, c4_marker_spacing 1
    [⟨⟨2, 0, 0⟩, zero3, zero3⟩, ⟨⟨4, 0, 0⟩, zero3, zero3⟩] 0 1
    one_pos Nat.zero_lt_one hf0 hf1 (fun k hk1 hk2 => by omega)⟩

/-- C8 (counterexample): for t_start = 0, t_end = 1, dt = 2/5 the
sampled times are 0, 0.4, 0.8 — three samples — while the claimed
count `⌈(t_end - t_start)/dt⌉ + 1 = ⌈5/2⌉ + 1` is 4. -/
theorem c8_counterexample :
    (evaluateRangeTimes 0 1 (2/5)).length = 3 ∧
    (⌈((1:ℝ) - 0) / (2/5)⌉ + 1 : ℤ) = 4 ∧ (3:ℤ) ≠ 4 := by
  refine ⟨?_, ?_, by decide⟩
  · simp only [evaluateRangeTimes]
    rw [if_pos (by norm_num : (0:ℝ) < 2/5 ∧ (0:ℝ) ≤ 1)]
    simp only [List.length_map, List.length_range]
    have h2 : ⌊((1:ℝ) - 0) / (2/5)⌋ = 2 := by
      rw [Int.floor_eq_iff]
      norm_num
    rw [h2]
    rfl
  · have h3 : ⌈((1:ℝ) - 0) / (2/5)⌉ = 3 := by
      rw [Int.ceil_eq_iff]
      norm_num
    rw [h3]
    rfl

/-- C8 (amended): for a valid range (t_end ≥ t_start, dt > 0) range
evaluation produces exactly `⌊(t_end - t_start)/dt⌋ + 1` samples, at
times t_start + k·dt, and index k is sampled exactly when
t_start + k·dt does not exceed t_end. -/
theorem c8_amended_range (ts te dt : ℝ) (hts : ts ≤ te) (hdt : 0 < dt) :
    rangeSamplingSpec ts te dt := by
  have hcond : 0 < dt ∧ ts ≤ te := ⟨hdt, hts⟩
  have hx0 : 0 ≤ (te - ts) / dt := div_nonneg (by linarith) hdt.le
  have hf0 : 0 ≤ ⌊(te - ts) / dt⌋ := Int.floor_nonneg.mpr hx0
  have hlen : (evaluateRangeTimes ts te dt).length = (⌊(te - ts) / dt⌋).toNat + 1 := by
    simp only [evaluateRangeTimes]
    rw [if_pos hcond]
    simp
  refine ⟨hlen, ?_, ?_⟩
  · intro k
    rw [hlen, Nat.lt_succ_iff, Int.le_toNat hf0, Int.le_floor]
    push_cast
    rw [le_div_iff hdt]
    constructor <;> intro h <;> linarith
  · intro k hk
    rw [hlen] at hk
    simp only [evaluateRangeTimes]
    rw [if_pos hcond]
    rw [List.get?_map, List.get?_range (by simpa using hk)]
    rfl

/-- C8 (witness): the valid range t_start = 0, t_end = 1, dt = 1/2
satisfies the amended sampling contract. -/
theorem c8_amended_range_witness :
    (0:ℝ) ≤ 1 ∧ (0:ℝ) < 1/2 ∧ rangeSamplingSpec 0 1 (1/2) :=
  ⟨by norm_num, by norm_num, c8_amended_range 0 1 (1/2) (by norm_num) (by norm_num)⟩

/-- C6: every marker emitted by the trajectory-drawing routine carries
the hardcoded frame `"world"`, not the caller-supplied frame
identifier; at the failing input `fid = "map"` the (nonempty) output
contains no marker with frame `"map"`. -/
theorem c6_frame_hardcoded_world (D : ℝ) (fid : String) (samples : List TrajPoint) :
    (drawMavTrajectoryModel D fid samples).all (fun m => m.frame == "world") = true ∧
    drawMavTrajectoryModel 1.6 "map" [] ≠ [] ∧
    (drawMavTrajectoryModel 1.6 "map" []).all (fun m => m.frame == "map") = false := by
  refine ⟨?_, ?_, ?_⟩
  · simp [drawMavTrajectoryModel, setMarkerFrames, List.all_eq_true]
  · simp [drawMavTrajectoryModel, setMarkerFrames, decimGo]
  · simp [drawMavTrajectoryModel, setMarkerFrames, decimGo]

end MavTraj
